import Mathlib

/-!
Verification development for the engineering-drawing export engine
(`drawing_engine.py`, `models.py`).

The Python code is shallowly embedded: strings are lists of characters,
floating point arithmetic is modelled over `ℚ`, measured text width is an
arbitrary function `List Char → ℚ` (reportlab's `stringWidth` for the chosen
font), `ValueError` raise sites become an explicit error type, and the
PDF backend is abstracted by a page-count oracle `String → ℕ`.
-/

namespace DrawingEngine

/-- Whitespace test used by Python's `str.split()` / `str.strip()`
(ASCII whitespace: space, tab, newline, carriage return, vertical tab,
form feed). -/
def isPySpace (c : Char) : Bool :=
  c = ' ' || c = '\t' || c = '\n' || c = '\r' || c = Char.ofNat 11 || c = Char.ofNat 12

/-- Python `str.rstrip()` on character lists. -/
def pyRstrip (l : List Char) : List Char := (l.reverse.dropWhile isPySpace).reverse

/-- Python `str.lstrip()` on character lists. -/
def pyLstrip (l : List Char) : List Char := l.dropWhile isPySpace

/-- Python `str.strip()` on character lists. -/
def pyStrip (l : List Char) : List Char := pyRstrip (pyLstrip l)

/-- Helper for `pySplit`: scans the list accumulating the current token. -/
def pySplitAux : List Char → List Char → List (List Char)
  | [], acc => if acc = [] then [] else [acc]
  | c :: s, acc =>
    if isPySpace c then (if acc = [] then [] else [acc]) ++ pySplitAux s []
    else pySplitAux s (acc ++ [c])

/-- Python `str.split()` with no argument: split on runs of whitespace,
dropping empty tokens. -/
def pySplit (s : List Char) : List (List Char) := pySplitAux s []

/-- Python `str.strip()` on `String`. -/
def pyStripString (s : String) : String := (pyStrip s.toList).asString

/-- Posix `os.path.basename`: the part of the path after the last slash. -/
def basenameL (p : List Char) : List Char :=
  (p.reverse.takeWhile (fun c => c ≠ '/')).reverse

/-- Helper for `splitextL`: scanning the reversed path, find the last dot of
the path that has no slash after it.  Returns the reversed suffix after the
dot and the reversed prefix before it. -/
def findExtSplit : List Char → Option (List Char × List Char)
  | [] => none
  | c :: r =>
    if c = '.' then some ([], r)
    else if c = '/' then none
    else (findExtSplit r).map (fun ab => (c :: ab.1, ab.2))

/-- Posix `os.path.splitext`: split off the extension at the last dot,
provided the final path component has a non-dot character strictly before
that dot (so dotfiles like `.gitignore` keep their name whole). -/
def splitextL (p : List Char) : List Char × List Char :=
  match findExtSplit p.reverse with
  | none => (p, [])
  | some ab =>
    if (ab.2.takeWhile (fun c => c ≠ '/')).any (fun c => c ≠ '.') then
      (ab.2.reverse, '.' :: ab.1.reverse)
    else (p, [])

/-- `_default_title_from_label` from `drawing_engine.py`: basename of the
label with its extension removed, falling back to the full basename when the
extension-stripped name is empty. -/
def default_title_from_label (label : String) : String :=
  let base := basenameL label.toList
  let name := (splitextL base).1
  if name = [] then base.asString else name.asString

/-- The `TitleBlock` dataclass from `models.py` (global fields only). -/
structure TitleBlock where
  issuer_company : String := ""
  logo_path : String := ""
  project : String := ""
  client : String := ""
  drawing_number : String := ""
  revision : String := ""
  date : String := ""
  drawn_by : String := ""
  checked_by : String := ""
  approved_by : String := ""
deriving DecidableEq

/-- The `SheetPlanItem` dataclass from `models.py`. -/
structure SheetPlanItem where
  kind : String
  source_path : String
  source_label : String
  pdf_page_index : Option ℤ := none
  drawing_title : String := ""
  comments : String := ""
deriving DecidableEq

/-- The `ExportSettings` dataclass from `models.py`. -/
structure ExportSettings where
  template_name : String := "A3_Landscape"
  fit_mode : String := "fit"
  page_margin_pt : ℚ := 18
  title_block_width_pt : ℚ := 210
  header_height_pt : ℚ := 0
deriving DecidableEq

/-- Result of `_compose_title_block_for_sheet`: a fresh copy of the global
`TitleBlock` fields together with the dynamically attached per-sheet
`drawing_title` and `comments` attributes. -/
structure ComposedTitleBlock where
  issuer_company : String
  logo_path : String
  project : String
  client : String
  drawing_number : String
  revision : String
  date : String
  drawn_by : String
  checked_by : String
  approved_by : String
  drawing_title : String
  comments : String
deriving DecidableEq

/-- `_compose_title_block_for_sheet` from `drawing_engine.py`: copy the
global fields, set `drawing_title` to the stripped per-sheet title when
non-empty and to `_default_title_from_label(source_label)` otherwise, and
set `comments` to the stripped per-sheet comments. -/
def compose_title_block_for_sheet (global_tb : TitleBlock) (item : SheetPlanItem) :
    ComposedTitleBlock :=
  { issuer_company := global_tb.issuer_company
    logo_path := global_tb.logo_path
    project := global_tb.project
    client := global_tb.client
    drawing_number := global_tb.drawing_number
    revision := global_tb.revision
    date := global_tb.date
    drawn_by := global_tb.drawn_by
    checked_by := global_tb.checked_by
    approved_by := global_tb.approved_by
    drawing_title :=
      if pyStripString item.drawing_title ≠ "" then pyStripString item.drawing_title
      else default_title_from_label item.source_label
    comments := pyStripString item.comments }

/-- Image sources produced by `_sheet_item_to_image`: either a file path
(image items) or a rasterized PDF page (pdf items). -/
inductive ImageSource where
  | path (p : String)
  | rendered (pdf_path : String) (page : ℕ)
deriving DecidableEq

/-- The distinct `ValueError` raise sites of the export pipeline. -/
inductive DrawError where
  | emptyPlan
  | missingPageIndex (label : String)
  | pageIndexOutOfRange (idx : ℤ) (path : String)
  | unknownKind (kind : String)
deriving DecidableEq

/-- `_render_pdf_page_to_image` from `drawing_engine.py`, with the PDF
backend abstracted by `pageCount` (the page count `fitz.open` reports for a
path).  Raises `ValueError` exactly when the page index is out of range. -/
def render_pdf_page_to_image (pageCount : String → ℕ) (pdf_path : String)
    (page_index : ℤ) (dpi : ℤ) : Except DrawError ImageSource :=
  let dpi2 := if dpi ≤ 0 then 220 else dpi
  if page_index < 0 ∨ (pageCount pdf_path : ℤ) ≤ page_index then
    Except.error (DrawError.pageIndexOutOfRange page_index pdf_path)
  else
    let _ := dpi2
    Except.ok (ImageSource.rendered pdf_path page_index.toNat)

/-- Python `str.lower()` on a single character (ASCII case mapping, which is
all the engine's kind strings use). -/
def pyLowerChar (c : Char) : Char :=
  if 'A' ≤ c ∧ c ≤ 'Z' then Char.ofNat (c.toNat + 32) else c

/-- Python `str.lower()`. -/
def pyLower (s : String) : String := (s.toList.map pyLowerChar).asString

/-- `_sheet_item_to_image` from `drawing_engine.py`. -/
def sheet_item_to_image (pageCount : String → ℕ) (item : SheetPlanItem)
    (dpi : ℤ) : Except DrawError ImageSource :=
  let kind := pyLower item.kind
  if kind = "image" then Except.ok (ImageSource.path item.source_path)
  else if kind = "pdf" then
    match item.pdf_page_index with
    | none => Except.error (DrawError.missingPageIndex item.source_label)
    | some idx => render_pdf_page_to_image pageCount item.source_path idx dpi
  else Except.error (DrawError.unknownKind item.kind)

/-- One rendered output sheet: the resolved image source and the composed
per-sheet title block. -/
structure RenderedSheet where
  image : ImageSource
  title_block : ComposedTitleBlock
deriving DecidableEq

/-- The per-sheet loop of `export_sheet_plan_to_pdf`: resolve each item to
an image and compose its title block, aborting on the first error. -/
def renderSheets (pageCount : String → ℕ) (global_tb : TitleBlock) (dpi : ℤ) :
    List SheetPlanItem → Except DrawError (List RenderedSheet)
  | [] => Except.ok []
  | item :: rest =>
    match sheet_item_to_image pageCount item dpi with
    | Except.error e => Except.error e
    | Except.ok img =>
      match renderSheets pageCount global_tb dpi rest with
      | Except.error e => Except.error e
      | Except.ok sheets =>
        Except.ok ({ image := img,
                     title_block := compose_title_block_for_sheet global_tb item } :: sheets)

/-- `export_sheet_plan_to_pdf` from `drawing_engine.py`: validate that the
plan is non-empty before the output document is created, then render every
sheet. -/
def export_sheet_plan_to_pdf (pageCount : String → ℕ) (sheet_plan : List SheetPlanItem)
    (global_tb : TitleBlock) (dpi : ℤ) : Except DrawError (List RenderedSheet) :=
  if sheet_plan = [] then Except.error DrawError.emptyPlan
  else renderSheets pageCount global_tb dpi sheet_plan

/-- An axis-aligned rectangle in page coordinates (points). -/
structure Rect where
  x : ℚ
  y : ℚ
  w : ℚ
  h : ℚ
deriving DecidableEq

/-- The inner padded box of `_draw_image_fitted`: the box shrunk by the
uniform inner padding on every side, each padded dimension at least 1. -/
def paddedBox (box : Rect) (pad : ℚ) : Rect :=
  { x := box.x + pad
    y := box.y + pad
    w := max 1 (box.w - 2 * pad)
    h := max 1 (box.h - 2 * pad) }

/-- Fit-mode normalization in `_draw_image_fitted`: anything other than
`fit` or `fill` falls back to `fit`. -/
def normalizeFitMode (m : String) : String :=
  if m = "fit" ∨ m = "fill" then m else "fit"

/-- The placement rectangle computed by `_draw_image_fitted` (the arguments
of its final `drawImage` call). -/
def placeImageRect (box : Rect) (im_w im_h : ℚ) (fit_mode : String) (pad : ℚ) : Rect :=
  let p := paddedBox box pad
  let img_aspect := im_w / im_h
  let box_aspect := p.w / p.h
  let mode := normalizeFitMode fit_mode
  let dims :=
    if mode = "fit" then
      if box_aspect < img_aspect then (p.w, p.w / img_aspect)
      else (p.h * img_aspect, p.h)
    else
      if box_aspect < img_aspect then (p.h * img_aspect, p.h)
      else (p.w, p.w / img_aspect)
  { x := p.x + (p.w - dims.1) / 2
    y := p.y + (p.h - dims.2) / 2
    w := dims.1
    h := dims.2 }

/-- `_draw_image_fitted` as a whole: returns the drawn rectangle, or `none`
when the early return for non-positive natural image sizes fires. -/
def draw_image_fitted (box : Rect) (im_w im_h : ℚ) (fit_mode : String) (pad : ℚ) :
    Option Rect :=
  if im_w ≤ 0 ∨ im_h ≤ 0 then none
  else some (placeImageRect box im_w im_h fit_mode pad)

/-- The `fit` computation of `_draw_image_fitted` with the aspect comparison
inverted, written out literally (used to state that `fill` is exactly this). -/
def placeImageRectFitInverted (box : Rect) (im_w im_h : ℚ) (pad : ℚ) : Rect :=
  let p := paddedBox box pad
  let img_aspect := im_w / im_h
  let box_aspect := p.w / p.h
  let dims :=
    if ¬ box_aspect < img_aspect then (p.w, p.w / img_aspect)
    else (p.h * img_aspect, p.h)
  { x := p.x + (p.w - dims.1) / 2
    y := p.y + (p.h - dims.2) / 2
    w := dims.1
    h := dims.2 }

/-- The `push_line` helper of `_wrap_text_to_lines`: append the right-stripped
line when its stripped form is non-empty. -/
def push_line (lines : List (List Char)) (line : List Char) : List (List Char) :=
  if pyStrip line ≠ [] then lines ++ [pyRstrip line] else lines

/-- The loop of `break_long_token` in `_wrap_text_to_lines`: grow the current
chunk while it still fits (or is empty), emitting maximal chunks. -/
def breakChunksGo (w : List Char → ℚ) (maxW : ℚ) :
    List Char → List Char → List (List Char)
  | [], chunk => if chunk = [] then [] else [chunk]
  | ch :: rest, chunk =>
    if w (chunk ++ [ch]) ≤ maxW ∨ chunk = [] then breakChunksGo w maxW rest (chunk ++ [ch])
    else chunk :: breakChunksGo w maxW rest [ch]

/-- `break_long_token` from `_wrap_text_to_lines`: break an over-wide token
into chunks character by character. -/
def break_long_token (w : List Char → ℚ) (maxW : ℚ) (tok : List Char) :
    List (List Char) :=
  breakChunksGo w maxW tok []

/-- The main token loop of `_wrap_text_to_lines`.  `w` is the measured string
width (`canvas.stringWidth` for the chosen font and size). -/
def wrapGo (w : List Char → ℚ) (maxW : ℚ) :
    List (List Char) → List Char → List (List Char) → List (List Char)
  | [], current, lines => if current ≠ [] then push_line lines current else lines
  | tok :: rest, current, lines =>
    if maxW < w tok then
      let lines1 := if current ≠ [] then push_line lines current else lines
      let lines2 := (break_long_token w maxW tok).foldl push_line lines1
      wrapGo w maxW rest [] lines2
    else
      let candidate := if current = [] then tok else current ++ ' ' :: tok
      if w candidate ≤ maxW then wrapGo w maxW rest candidate lines
      else wrapGo w maxW rest tok (push_line lines current)

/-- `_wrap_text_to_lines` from `drawing_engine.py`: remove carriage returns,
strip, and wrap the whitespace-separated tokens to lines of measured width at
most `maxW`, breaking over-wide tokens. -/
def wrap_text_to_lines (w : List Char → ℚ) (maxW : ℚ) (text : List Char) :
    List (List Char) :=
  let t := pyStrip (text.filter (fun c => c ≠ '\r'))
  if t = [] then [] else wrapGo w maxW (pySplit t) [] []

/-- Python `" ".join`: join lines with single spaces. -/
def spaceJoin : List (List Char) → List Char
  | [] => []
  | [l] => l
  | l :: l2 :: ls => l ++ ' ' :: spaceJoin (l2 :: ls)

/-- The concatenated whitespace-split token sequence of a list of lines. -/
def tokensOfLines (lines : List (List Char)) : List (List Char) :=
  (lines.map pySplit).flatten

/-- Token-level effect of one pass of `_wrap_text_to_lines`: a token that
fits is kept, an over-wide one is replaced by its chunks. -/
def expandToken (w : List Char → ℚ) (maxW : ℚ) (t : List Char) : List (List Char) :=
  if maxW < w t then break_long_token w maxW t else [t]

/-- The title-block strip height used by `_draw_iso_title_block`. -/
def title_block_strip_height (page_h margin : ℚ) : ℚ := page_h - 2 * margin

/-- The five band heights (sign-off, info, title, top, comments) computed by
`_draw_iso_title_block` from the strip height. -/
def iso_band_heights (tb_h : ℚ) : ℚ × ℚ × ℚ × ℚ × ℚ :=
  let sign_h : ℚ := 95
  let info_h : ℚ := 90
  let title_h : ℚ := 150
  let top_h : ℚ := max 150 (tb_h * (22 / 100))
  let fixed := sign_h + info_h + title_h + top_h
  let comments_h := max 140 (tb_h - fixed)
  (sign_h, info_h, title_h, top_h, comments_h)

/-! ### Theorems -/

/-- Claim C1 (counterexample): the claim asserts that for an item with an
empty per-sheet title and `source_label = "drawing.pdf - Page 2"` the
composed `drawing_title` is `"drawing.pdf - Page 2"` unchanged.  It is not:
`os.path.splitext` treats everything from the last dot onward as the
extension, so the composed title is `"drawing"`. -/
theorem compose_title_block_page_label_counterexample :
    (compose_title_block_for_sheet {} (⟨"pdf", "drawing.pdf", "drawing.pdf - Page 2", none, "", ""⟩ : SheetPlanItem)).drawing_title = "drawing" ∧
    (compose_title_block_for_sheet {} (⟨"pdf", "drawing.pdf", "drawing.pdf - Page 2", none, "", ""⟩ : SheetPlanItem)).drawing_title ≠ "drawing.pdf - Page 2" := by
  constructor
  · decide
  · decide

/-- Claim C1 (amended): `compose_title_block_for_sheet` sets the composed
drawing title to the trimmed per-sheet title when that is non-empty, and
otherwise to the basename of the item's `source_label` with its file
extension stripped (falling back to the full basename if stripping yields an
empty string); for an item with `drawing_title = ""` and
`source_label = "drawing.pdf - Page 2"` the composed title is `"drawing"`
(the dot before `pdf` starts the recognized extension), while
`source_label = "plan.png"` yields `"plan"`. -/
theorem compose_title_block_title_rule (g : TitleBlock) (item : SheetPlanItem) :
    (compose_title_block_for_sheet g item).drawing_title =
      (if pyStripString item.drawing_title ≠ "" then pyStripString item.drawing_title
       else default_title_from_label item.source_label) ∧
    (compose_title_block_for_sheet g item).comments = pyStripString item.comments ∧
    (item.drawing_title = "" → item.source_label = "drawing.pdf - Page 2" →
      (compose_title_block_for_sheet g item).drawing_title = "drawing") ∧
    (item.drawing_title = "" → item.source_label = "plan.png" →
      (compose_title_block_for_sheet g item).drawing_title = "plan") := by
  refine ⟨rfl, rfl, ?_, ?_⟩ <;> intro h1 h2 <;>
    simp only [compose_title_block_for_sheet, h1, h2] <;> decide

/-- Claim C1 (witness for the amended theorem). -/
theorem compose_title_block_title_rule_witness :
    (compose_title_block_for_sheet {} (⟨"pdf", "", "drawing.pdf - Page 2", none, "", ""⟩ : SheetPlanItem)).drawing_title = "drawing" :=
  (compose_title_block_title_rule {} _).2.2.1 rfl rfl

/-- Claim C7: composing a per-sheet title block copies every global field of
the `TitleBlock` verbatim onto a fresh record; being a pure function of its
two arguments, it leaves the global record and the item unchanged (the
per-sheet `drawing_title` and `comments` exist only on the composed copy). -/
theorem compose_title_block_preserves_global (g : TitleBlock) (item : SheetPlanItem) :
    (compose_title_block_for_sheet g item).issuer_company = g.issuer_company ∧
    (compose_title_block_for_sheet g item).logo_path = g.logo_path ∧
    (compose_title_block_for_sheet g item).project = g.project ∧
    (compose_title_block_for_sheet g item).client = g.client ∧
    (compose_title_block_for_sheet g item).drawing_number = g.drawing_number ∧
    (compose_title_block_for_sheet g item).revision = g.revision ∧
    (compose_title_block_for_sheet g item).date = g.date ∧
    (compose_title_block_for_sheet g item).drawn_by = g.drawn_by ∧
    (compose_title_block_for_sheet g item).checked_by = g.checked_by ∧
    (compose_title_block_for_sheet g item).approved_by = g.approved_by :=
  ⟨rfl, rfl, rfl, rfl, rfl, rfl, rfl, rfl, rfl, rfl⟩

/-- Claim C8: the ISO title-block band heights are sign-off 95, info 90,
title 150, top `max 150 (0.22 * tb_h)` and comments
`max 140 (tb_h - (95 + 90 + 150 + top))`; the five bands sum to the strip
height exactly when the leftover is at least 140, and otherwise the comments
band floors at 140 and the bands overflow the strip. -/
theorem iso_band_heights_spec (page_h margin : ℚ) :
    (iso_band_heights (title_block_strip_height page_h margin)).1 = 95 ∧
    (iso_band_heights (title_block_strip_height page_h margin)).2.1 = 90 ∧
    (iso_band_heights (title_block_strip_height page_h margin)).2.2.1 = 150 ∧
    (iso_band_heights (title_block_strip_height page_h margin)).2.2.2.1 =
      max 150 (title_block_strip_height page_h margin * (22 / 100)) ∧
    (iso_band_heights (title_block_strip_height page_h margin)).2.2.2.2 =
      max 140 (title_block_strip_height page_h margin -
        (95 + 90 + 150 + max 150 (title_block_strip_height page_h margin * (22 / 100)))) ∧
    (140 ≤ title_block_strip_height page_h margin -
        (95 + 90 + 150 + max 150 (title_block_strip_height page_h margin * (22 / 100))) →
      (iso_band_heights (title_block_strip_height page_h margin)).1 +
        (iso_band_heights (title_block_strip_height page_h margin)).2.1 +
        (iso_band_heights (title_block_strip_height page_h margin)).2.2.1 +
        (iso_band_heights (title_block_strip_height page_h margin)).2.2.2.1 +
        (iso_band_heights (title_block_strip_height page_h margin)).2.2.2.2 =
        title_block_strip_height page_h margin) ∧
    (title_block_strip_height page_h margin -
        (95 + 90 + 150 + max 150 (title_block_strip_height page_h margin * (22 / 100))) < 140 →
      (iso_band_heights (title_block_strip_height page_h margin)).2.2.2.2 = 140 ∧
      title_block_strip_height page_h margin <
        (iso_band_heights (title_block_strip_height page_h margin)).1 +
          (iso_band_heights (title_block_strip_height page_h margin)).2.1 +
          (iso_band_heights (title_block_strip_height page_h margin)).2.2.1 +
          (iso_band_heights (title_block_strip_height page_h margin)).2.2.2.1 +
          (iso_band_heights (title_block_strip_height page_h margin)).2.2.2.2) := by
  set tbh := title_block_strip_height page_h margin
  refine ⟨rfl, rfl, rfl, rfl, rfl, ?_, ?_⟩
  · intro h
    show 95 + 90 + 150 + max 150 (tbh * (22 / 100)) +
        max 140 (tbh - (95 + 90 + 150 + max 150 (tbh * (22 / 100)))) = tbh
    rw [max_eq_right h]
    ring
  · intro h
    refine ⟨max_eq_left (le_of_lt h), ?_⟩
    show tbh < 95 + 90 + 150 + max 150 (tbh * (22 / 100)) +
        max 140 (tbh - (95 + 90 + 150 + max 150 (tbh * (22 / 100))))
    rw [max_eq_left (le_of_lt h)]
    linarith

/-- Claim C8 (witness): for a strip height of 1000 the leftover is 445 and
the five bands sum exactly to the strip height. -/
theorem iso_band_heights_spec_witness :
    (iso_band_heights (title_block_strip_height 1036 18)).1 +
      (iso_band_heights (title_block_strip_height 1036 18)).2.1 +
      (iso_band_heights (title_block_strip_height 1036 18)).2.2.1 +
      (iso_band_heights (title_block_strip_height 1036 18)).2.2.2.1 +
      (iso_band_heights (title_block_strip_height 1036 18)).2.2.2.2 =
      title_block_strip_height 1036 18 :=
  (iso_band_heights_spec 1036 18).2.2.2.2.2.1 (by norm_num [title_block_strip_height])

/-- Claim C10: for any fit-mode string other than exactly `fit` or `fill`
(e.g. `FILL`, `cover`, the empty string), `_draw_image_fitted` silently falls
back to the `fit` computation and raises no error: the resulting rectangle is
identical to the one produced with mode `fit`. -/
theorem draw_image_fitted_unknown_mode_fallback (box : Rect) (im_w im_h pad : ℚ)
    (mode : String) (h1 : mode ≠ "fit") (h2 : mode ≠ "fill") :
    draw_image_fitted box im_w im_h mode pad = draw_image_fitted box im_w im_h "fit" pad := by
  have hmode : normalizeFitMode mode = "fit" := by
    unfold normalizeFitMode
    rw [if_neg]
    rintro (h | h)
    · exact h1 h
    · exact h2 h
  unfold draw_image_fitted placeImageRect
  rw [hmode]
  rfl

/-- Claim C10 (witness): mode `FILL` (wrong case) gives the `fit` rectangle. -/
theorem draw_image_fitted_unknown_mode_fallback_witness :
    draw_image_fitted ⟨0, 0, 100, 50⟩ 10 10 "FILL" 6 =
      draw_image_fitted ⟨0, 0, 100, 50⟩ 10 10 "fit" 6 :=
  draw_image_fitted_unknown_mode_fallback ⟨0, 0, 100, 50⟩ 10 10 6 "FILL"
    (by decide) (by decide)

/-- Helper: `_sheet_item_to_image` never raises the empty-plan error. -/
theorem sheet_item_to_image_ne_emptyPlan (pc : String → ℕ) (item : SheetPlanItem)
    (dpi : ℤ) : sheet_item_to_image pc item dpi ≠ Except.error DrawError.emptyPlan := by
  unfold sheet_item_to_image render_pdf_page_to_image
  intro h
  repeat' split at h
  all_goals
    by_cases hA : pyLower item.kind = "image" <;> by_cases hB : pyLower item.kind = "pdf" <;>
      simp [hA, hB] at h

/-- Helper: the sheet loop never raises the empty-plan error. -/
theorem renderSheets_ne_emptyPlan (pc : String → ℕ) (g : TitleBlock) (dpi : ℤ)
    (plan : List SheetPlanItem) :
    renderSheets pc g dpi plan ≠ Except.error DrawError.emptyPlan := by
  induction plan with
  | nil => simp [renderSheets]
  | cons item rest ih =>
    simp only [renderSheets]
    split
    · rename_i e heq
      simp only [ne_eq, Except.error.injEq]
      rintro rfl
      exact sheet_item_to_image_ne_emptyPlan pc item dpi heq
    · split
      · rename_i e heq
        simp only [ne_eq, Except.error.injEq]
        rintro rfl
        exact ih heq
      · simp

/-- Claim C5: exporting an empty sheet plan raises the validation error
before the output document is created (in the model: the export returns the
empty-plan error with no sheet rendered), and for any non-empty plan this
validation error is never raised. -/
theorem export_empty_plan_validation (pc : String → ℕ) (g : TitleBlock) (dpi : ℤ) :
    export_sheet_plan_to_pdf pc [] g dpi = Except.error DrawError.emptyPlan ∧
    ∀ plan : List SheetPlanItem, plan ≠ [] →
      export_sheet_plan_to_pdf pc plan g dpi ≠ Except.error DrawError.emptyPlan := by
  refine ⟨rfl, ?_⟩
  intro plan hne
  unfold export_sheet_plan_to_pdf
  rw [if_neg hne]
  exact renderSheets_ne_emptyPlan pc g dpi plan

/-- Claim C5 (witness): concrete empty and singleton plans. -/
theorem export_empty_plan_validation_witness :
    export_sheet_plan_to_pdf (fun _ => 1) [] {} 220 = Except.error DrawError.emptyPlan ∧
    export_sheet_plan_to_pdf (fun _ => 1) [⟨"image", "a.png", "a.png", none, "", ""⟩] {} 220 ≠
      Except.error DrawError.emptyPlan :=
  ⟨(export_empty_plan_validation (fun _ => 1) {} 220).1,
   (export_empty_plan_validation (fun _ => 1) {} 220).2 _ (by simp)⟩

/-- Claim C6: for a sheet-plan item of kind `pdf`, resolving it to an image
raises a validation error if and only if its `pdf_page_index` is missing or
out of range (negative or at least the source's page count); an item of
unknown kind likewise raises a validation error; and any such error aborts
the whole export loop. -/
theorem sheet_item_to_image_pdf_validation (pc : String → ℕ) (g : TitleBlock)
    (item : SheetPlanItem) (dpi : ℤ) :
    (pyLower item.kind = "pdf" →
      ((∃ e, sheet_item_to_image pc item dpi = Except.error e) ↔
        item.pdf_page_index = none ∨
          ∃ idx, item.pdf_page_index = some idx ∧
            (idx < 0 ∨ (pc item.source_path : ℤ) ≤ idx))) ∧
    (pyLower item.kind ≠ "image" → pyLower item.kind ≠ "pdf" →
      ∃ e, sheet_item_to_image pc item dpi = Except.error e) ∧
    (∀ e rest, sheet_item_to_image pc item dpi = Except.error e →
      renderSheets pc g dpi (item :: rest) = Except.error e) := by
  refine ⟨?_, ?_, ?_⟩
  · intro hk
    unfold sheet_item_to_image render_pdf_page_to_image
    rw [hk]
    rw [if_neg (by decide : ¬ ("pdf" : String) = "image"), if_pos rfl]
    cases hopt : item.pdf_page_index with
    | none => simp
    | some idx =>
      by_cases hrange : idx < 0 ∨ (pc item.source_path : ℤ) ≤ idx
      · simp only [if_pos hrange]
        simp [hrange]
      · simp only [if_neg hrange]
        simp [hrange]
  · intro h1 h2
    unfold sheet_item_to_image
    rw [if_neg h1, if_neg h2]
    exact ⟨_, rfl⟩
  · intro e rest h
    simp [renderSheets, h]

/-- Claim C6 (witness): page index 5 of a 3-page PDF errors; unknown kind
`note` errors. -/
theorem sheet_item_to_image_pdf_validation_witness :
    (∃ e, sheet_item_to_image (fun _ => 3)
        ⟨"pdf", "d.pdf", "d.pdf - Page 6", some 5, "", ""⟩ 220 = Except.error e) ∧
    (∃ e, sheet_item_to_image (fun _ => 3)
        ⟨"note", "x", "x", none, "", ""⟩ 220 = Except.error e) :=
  ⟨((sheet_item_to_image_pdf_validation (fun _ => 3) {}
        ⟨"pdf", "d.pdf", "d.pdf - Page 6", some 5, "", ""⟩ 220).1 (by decide)).mpr
      (Or.inr ⟨5, rfl, Or.inr (by norm_num)⟩),
   (sheet_item_to_image_pdf_validation (fun _ => 3)
        {} ⟨"note", "x", "x", none, "", ""⟩ 220).2.1 (by decide) (by decide)⟩

/-- Helper: mode normalization keeps `fill`. -/
theorem normalizeFitMode_fill : normalizeFitMode "fill" = "fill" := rfl

/-- Helper: the strings `fill` and `fit` differ. -/
theorem fill_ne_fit : (("fill" : String) = "fit") = False := eq_false (by decide)

/-- Helper: the `fit` placement when the image is wider than the padded box. -/
theorem placeImageRect_fit_of_lt (box : Rect) (im_w im_h pad : ℚ) (p : Rect)
    (hp : p = paddedBox box pad) (hc : p.w / p.h < im_w / im_h) :
    placeImageRect box im_w im_h "fit" pad =
      { x := p.x + (p.w - p.w) / 2
        y := p.y + (p.h - p.w / (im_w / im_h)) / 2
        w := p.w
        h := p.w / (im_w / im_h) } := by
  subst hp
  simp only [placeImageRect, normalizeFitMode]
  norm_num [hc]

/-- Helper: the `fit` placement when the image is at most as wide as the
padded box. -/
theorem placeImageRect_fit_of_ge (box : Rect) (im_w im_h pad : ℚ) (p : Rect)
    (hp : p = paddedBox box pad) (hc : ¬ p.w / p.h < im_w / im_h) :
    placeImageRect box im_w im_h "fit" pad =
      { x := p.x + (p.w - p.h * (im_w / im_h)) / 2
        y := p.y + (p.h - p.h) / 2
        w := p.h * (im_w / im_h)
        h := p.h } := by
  subst hp
  simp only [placeImageRect, normalizeFitMode]
  norm_num [hc]

/-- Helper: the `fill` placement when the image is wider than the padded box. -/
theorem placeImageRect_fill_of_lt (box : Rect) (im_w im_h pad : ℚ) (p : Rect)
    (hp : p = paddedBox box pad) (hc : p.w / p.h < im_w / im_h) :
    placeImageRect box im_w im_h "fill" pad =
      { x := p.x + (p.w - p.h * (im_w / im_h)) / 2
        y := p.y + (p.h - p.h) / 2
        w := p.h * (im_w / im_h)
        h := p.h } := by
  subst hp
  simp only [placeImageRect, normalizeFitMode_fill, fill_ne_fit, if_false]
  norm_num [hc]

/-- Helper: the `fill` placement when the image is at most as wide as the
padded box. -/
theorem placeImageRect_fill_of_ge (box : Rect) (im_w im_h pad : ℚ) (p : Rect)
    (hp : p = paddedBox box pad) (hc : ¬ p.w / p.h < im_w / im_h) :
    placeImageRect box im_w im_h "fill" pad =
      { x := p.x + (p.w - p.w) / 2
        y := p.y + (p.h - p.w / (im_w / im_h)) / 2
        w := p.w
        h := p.w / (im_w / im_h) } := by
  subst hp
  simp only [placeImageRect, normalizeFitMode_fill, fill_ne_fit, if_false]
  norm_num [hc]

/-- Claim C3: in `fit` mode with positive natural image dimensions, the
placed rectangle is fully contained in the padded box, touches it on at
least one axis (its width equals the padded width or its height the padded
height), preserves the image aspect ratio exactly, and is centered in the
padded box on both axes; and the early-return guard does not fire. -/
theorem placeImageRect_fit_spec (box : Rect) (im_w im_h pad : ℚ)
    (hw : 0 < im_w) (hh : 0 < im_h) :
    ∀ p r : Rect, p = paddedBox box pad → r = placeImageRect box im_w im_h "fit" pad →
      draw_image_fitted box im_w im_h "fit" pad = some r ∧
      p.x ≤ r.x ∧ r.x + r.w ≤ p.x + p.w ∧
      p.y ≤ r.y ∧ r.y + r.h ≤ p.y + p.h ∧
      0 < r.w ∧ 0 < r.h ∧
      (r.w = p.w ∨ r.h = p.h) ∧
      r.w / r.h = im_w / im_h ∧
      r.x - p.x = p.x + p.w - (r.x + r.w) ∧
      r.y - p.y = p.y + p.h - (r.y + r.h) := by
  intro p r hp hr
  have ha : 0 < im_w / im_h := div_pos hw hh
  have hdf : draw_image_fitted box im_w im_h "fit" pad = some r := by
    rw [hr]
    unfold draw_image_fitted
    rw [if_neg]
    push_neg
    exact ⟨hw, hh⟩
  have hpw : 0 < p.w := by
    rw [hp]
    exact lt_of_lt_of_le one_pos (le_max_left _ _)
  have hph : 0 < p.h := by
    rw [hp]
    exact lt_of_lt_of_le one_pos (le_max_left _ _)
  by_cases hc : p.w / p.h < im_w / im_h
  · rw [placeImageRect_fit_of_lt box im_w im_h pad p hp hc] at hr
    have h1 : p.w < im_w / im_h * p.h := (div_lt_iff₀ hph).mp hc
    have hdh : p.w / (im_w / im_h) ≤ p.h := by
      rw [div_le_iff₀ ha, mul_comm]
      linarith
    have hdhpos : 0 < p.w / (im_w / im_h) := div_pos hpw ha
    have hasp : p.w / (p.w / (im_w / im_h)) = im_w / im_h := by
      rw [div_div_eq_mul_div, mul_comm, mul_div_assoc, div_self (ne_of_gt hpw), mul_one]
    subst hr
    refine ⟨hdf, by simp, by simp, ?_, ?_, hpw, hdhpos, Or.inl rfl, hasp, by ring, by ring⟩
    · simp only [Rect.mk.injEq]
      linarith
    · simp only [Rect.mk.injEq]
      linarith
  · rw [placeImageRect_fit_of_ge box im_w im_h pad p hp hc] at hr
    have h1 : im_w / im_h * p.h ≤ p.w := (le_div_iff₀ hph).mp (le_of_not_lt hc)
    have hdw : p.h * (im_w / im_h) ≤ p.w := by
      rw [mul_comm]
      exact h1
    have hdwpos : 0 < p.h * (im_w / im_h) := mul_pos hph ha
    have hasp : p.h * (im_w / im_h) / p.h = im_w / im_h :=
      mul_div_cancel_left₀ _ (ne_of_gt hph)
    subst hr
    refine ⟨hdf, ?_, ?_, by simp, by simp, hdwpos, hph, Or.inr rfl, hasp, by ring, by ring⟩
    · simp only [Rect.mk.injEq]
      linarith
    · simp only [Rect.mk.injEq]
      linarith

/-- Claim C3 (witness): concrete box and square image. -/
theorem placeImageRect_fit_spec_witness :
    draw_image_fitted ⟨0, 0, 100, 50⟩ 10 10 "fit" 6 =
      some (placeImageRect ⟨0, 0, 100, 50⟩ 10 10 "fit" 6) :=
  ((placeImageRect_fit_spec ⟨0, 0, 100, 50⟩ 10 10 6 (by norm_num) (by norm_num))
    _ _ rfl rfl).1

/-- Claim C4: in `fill` mode with positive natural image dimensions, the
placed rectangle entirely covers the padded box (its width and height are at
least the padded width and height), preserves the image aspect ratio
exactly, is centered in the padded box on both axes, and the computation is
exactly the `fit` computation with the aspect comparison inverted. -/
theorem placeImageRect_fill_spec (box : Rect) (im_w im_h pad : ℚ)
    (hw : 0 < im_w) (hh : 0 < im_h) :
    ∀ p r : Rect, p = paddedBox box pad → r = placeImageRect box im_w im_h "fill" pad →
      draw_image_fitted box im_w im_h "fill" pad = some r ∧
      p.w ≤ r.w ∧ p.h ≤ r.h ∧
      0 < r.w ∧ 0 < r.h ∧
      r.w / r.h = im_w / im_h ∧
      r.x - p.x = p.x + p.w - (r.x + r.w) ∧
      r.y - p.y = p.y + p.h - (r.y + r.h) ∧
      r = placeImageRectFitInverted box im_w im_h pad := by
  intro p r hp hr
  have ha : 0 < im_w / im_h := div_pos hw hh
  have hdf : draw_image_fitted box im_w im_h "fill" pad = some r := by
    rw [hr]
    unfold draw_image_fitted
    rw [if_neg]
    push_neg
    exact ⟨hw, hh⟩
  have hpw : 0 < p.w := by
    rw [hp]
    exact lt_of_lt_of_le one_pos (le_max_left _ _)
  have hph : 0 < p.h := by
    rw [hp]
    exact lt_of_lt_of_le one_pos (le_max_left _ _)
  have hinv : placeImageRect box im_w im_h "fill" pad =
      placeImageRectFitInverted box im_w im_h pad := by
    by_cases hc : (paddedBox box pad).w / (paddedBox box pad).h < im_w / im_h <;>
      · simp only [placeImageRect, placeImageRectFitInverted, normalizeFitMode_fill,
          fill_ne_fit, if_false]
        norm_num [hc]
  by_cases hc : p.w / p.h < im_w / im_h
  · rw [placeImageRect_fill_of_lt box im_w im_h pad p hp hc] at hr
    have h1 : p.w < im_w / im_h * p.h := (div_lt_iff₀ hph).mp hc
    have hdw : p.w ≤ p.h * (im_w / im_h) := by
      rw [mul_comm]
      linarith
    have hdwpos : 0 < p.h * (im_w / im_h) := mul_pos hph ha
    have hasp : p.h * (im_w / im_h) / p.h = im_w / im_h :=
      mul_div_cancel_left₀ _ (ne_of_gt hph)
    have hrinv : r = placeImageRectFitInverted box im_w im_h pad := by
      rw [← hinv, hr, placeImageRect_fill_of_lt box im_w im_h pad p hp hc]
    subst hr
    exact ⟨hdf, hdw, le_refl _, hdwpos, hph, hasp, by ring, by ring, hrinv⟩
  · rw [placeImageRect_fill_of_ge box im_w im_h pad p hp hc] at hr
    have h1 : im_w / im_h * p.h ≤ p.w := (le_div_iff₀ hph).mp (le_of_not_lt hc)
    have hdh : p.h ≤ p.w / (im_w / im_h) := by
      rw [le_div_iff₀ ha, mul_comm]
      linarith
    have hdhpos : 0 < p.w / (im_w / im_h) := div_pos hpw ha
    have hasp : p.w / (p.w / (im_w / im_h)) = im_w / im_h := by
      rw [div_div_eq_mul_div, mul_comm, mul_div_assoc, div_self (ne_of_gt hpw), mul_one]
    have hrinv : r = placeImageRectFitInverted box im_w im_h pad := by
      rw [← hinv, hr, placeImageRect_fill_of_ge box im_w im_h pad p hp hc]
    subst hr
    exact ⟨hdf, le_refl _, hdh, hpw, hdhpos, hasp, by ring, by ring, hrinv⟩

/-- Claim C4 (witness): concrete box and square image. -/
theorem placeImageRect_fill_spec_witness :
    draw_image_fitted ⟨0, 0, 100, 50⟩ 10 10 "fill" 6 =
      some (placeImageRect ⟨0, 0, 100, 50⟩ 10 10 "fill" 6) :=
  ((placeImageRect_fill_spec ⟨0, 0, 100, 50⟩ 10 10 6 (by norm_num) (by norm_num))
    _ _ rfl rfl).1

/-- Helper: characters of a right-stripped list come from the list. -/
theorem mem_of_mem_pyRstrip {c : Char} {l : List Char} (h : c ∈ pyRstrip l) : c ∈ l := by
  rw [pyRstrip, List.mem_reverse] at h
  exact List.mem_reverse.mp (List.Sublist.subset (List.dropWhile_sublist _) h)

/-- Helper: right-stripping a list that ends in a non-empty whitespace-free
token is the identity. -/
theorem pyRstrip_append_token (a tok : List Char) (h1 : tok ≠ [])
    (h2 : ∀ c ∈ tok, isPySpace c = false) : pyRstrip (a ++ tok) = a ++ tok := by
  rw [pyRstrip, List.reverse_append]
  cases htr : tok.reverse with
  | nil => exact absurd (List.reverse_eq_nil_iff.mp htr) h1
  | cons c rest =>
    have hcmem : c ∈ tok := List.mem_reverse.mp (htr ▸ List.mem_cons_self c rest)
    have hc : isPySpace c = false := h2 c hcmem
    rw [List.cons_append, List.dropWhile_cons_of_neg (by simp [hc]), ← List.cons_append,
      ← htr, ← List.reverse_append, List.reverse_reverse]

/-- Helper: right-stripping a whitespace-free non-empty token is the identity. -/
theorem pyRstrip_token (tok : List Char) (h1 : tok ≠ [])
    (h2 : ∀ c ∈ tok, isPySpace c = false) : pyRstrip tok = tok := by
  have h := pyRstrip_append_token [] tok h1 h2
  simpa using h

/-- Helper: splitting an all-whitespace list yields only the accumulator. -/
theorem pySplitAux_allspace (sp : List Char) (acc : List Char)
    (h : ∀ c ∈ sp, isPySpace c = true) :
    pySplitAux sp acc = if acc = [] then [] else [acc] := by
  induction sp generalizing acc with
  | nil => rfl
  | cons c s ih =>
    have hc : isPySpace c = true := h c (List.mem_cons_self c s)
    have hrest : ∀ d ∈ s, isPySpace d = true := fun d hd => h d (List.mem_cons_of_mem c hd)
    simp only [pySplitAux, hc, if_true]
    rw [ih [] hrest]
    simp

/-- Helper: splitting a whitespace-free list appends it to the accumulator. -/
theorem pySplitAux_nonspace (s : List Char) (acc : List Char)
    (h : ∀ c ∈ s, isPySpace c = false) :
    pySplitAux s acc = if acc ++ s = [] then [] else [acc ++ s] := by
  induction s generalizing acc with
  | nil => simp [pySplitAux]
  | cons c t ih =>
    have hc : isPySpace c = false := h c (List.mem_cons_self c t)
    have hrest : ∀ d ∈ t, isPySpace d = false := fun d hd => h d (List.mem_cons_of_mem c hd)
    simp only [pySplitAux, hc, if_false, Bool.false_eq_true]
    rw [ih (acc ++ [c]) hrest]
    simp

/-- Helper: a non-empty whitespace-free token splits to itself. -/
theorem pySplit_token (tok : List Char) (h1 : tok ≠ [])
    (h2 : ∀ c ∈ tok, isPySpace c = false) : pySplit tok = [tok] := by
  rw [pySplit, pySplitAux_nonspace tok [] h2]
  simp [h1]

/-- Helper: every token produced by the splitter is non-empty and
whitespace-free. -/
theorem mem_pySplitAux (s : List Char) (acc : List Char)
    (hacc : ∀ c ∈ acc, isPySpace c = false) :
    ∀ t ∈ pySplitAux s acc, t ≠ [] ∧ ∀ c ∈ t, isPySpace c = false := by
  induction s generalizing acc with
  | nil =>
    intro t ht
    simp only [pySplitAux] at ht
    by_cases hae : acc = []
    · simp [hae] at ht
    · rw [if_neg hae] at ht
      rw [List.mem_singleton] at ht
      subst ht
      exact ⟨hae, hacc⟩
  | cons c r ih =>
    intro t ht
    simp only [pySplitAux] at ht
    by_cases hc : isPySpace c = true
    · rw [if_pos hc, List.mem_append] at ht
      rcases ht with ht | ht
      · by_cases hae : acc = []
        · simp [hae] at ht
        · rw [if_neg hae, List.mem_singleton] at ht
          subst ht
          exact ⟨hae, hacc⟩
      · exact ih [] (by simp) t ht
    · rw [if_neg hc] at ht
      refine ih (acc ++ [c]) ?_ t ht
      intro d hd
      rcases List.mem_append.mp hd with hd | hd
      · exact hacc d hd
      · rw [List.mem_singleton] at hd
        subst hd
        simpa using hc

/-- Helper: tokens of `pySplit` are non-empty and whitespace-free. -/
theorem mem_pySplit (s : List Char) :
    ∀ t ∈ pySplit s, t ≠ [] ∧ ∀ c ∈ t, isPySpace c = false :=
  mem_pySplitAux s [] (by simp)

/-- Helper: splitting distributes over a single separating space. -/
theorem pySplitAux_append_space (a b : List Char) (acc : List Char) :
    pySplitAux (a ++ ' ' :: b) acc = pySplitAux a acc ++ pySplit b := by
  induction a generalizing acc with
  | nil =>
    have hsp : isPySpace ' ' = true := rfl
    simp only [List.nil_append, pySplitAux, hsp, if_true]
    rfl
  | cons c a2 ih =>
    simp only [List.cons_append, pySplitAux, List.append_eq]
    by_cases hc : isPySpace c = true
    · rw [if_pos hc, if_pos hc, ih [], List.append_assoc]
    · rw [if_neg hc, if_neg hc, ih (acc ++ [c])]

/-- Helper: `pySplit` distributes over a single separating space. -/
theorem pySplit_append_space (a b : List Char) :
    pySplit (a ++ ' ' :: b) = pySplit a ++ pySplit b :=
  pySplitAux_append_space a b []

/-- Helper: trailing whitespace does not change the split. -/
theorem pySplitAux_append_allspace (a sp : List Char) (acc : List Char)
    (h : ∀ c ∈ sp, isPySpace c = true) :
    pySplitAux (a ++ sp) acc = pySplitAux a acc := by
  induction a generalizing acc with
  | nil =>
    rw [List.nil_append, pySplitAux_allspace sp acc h]
    rfl
  | cons c a2 ih =>
    simp only [List.cons_append, pySplitAux, List.append_eq]
    by_cases hc : isPySpace c = true
    · rw [if_pos hc, if_pos hc, ih []]
    · rw [if_neg hc, if_neg hc, ih (acc ++ [c])]

/-- Helper: leading whitespace does not change the split. -/
theorem pySplitAux_allspace_append (sp a : List Char)
    (h : ∀ c ∈ sp, isPySpace c = true) :
    pySplitAux (sp ++ a) [] = pySplitAux a [] := by
  induction sp with
  | nil => rfl
  | cons c t ih =>
    have hc : isPySpace c = true := h c (List.mem_cons_self c t)
    simp only [List.cons_append, pySplitAux, hc, if_true, List.append_eq]
    rw [List.nil_append]
    exact ih (fun d hd => h d (List.mem_cons_of_mem c hd))

/-- Helper: the decomposition of a list into its right-strip and trailing
whitespace. -/
theorem pyRstrip_append_eq (l : List Char) :
    pyRstrip l ++ (l.reverse.takeWhile isPySpace).reverse = l := by
  rw [pyRstrip, ← List.reverse_append, List.takeWhile_append_dropWhile, List.reverse_reverse]

/-- Helper: right-stripping does not change the split. -/
theorem pySplit_rstrip (l : List Char) : pySplit (pyRstrip l) = pySplit l := by
  conv_rhs => rw [← pyRstrip_append_eq l]
  exact (pySplitAux_append_allspace _ _ _ (fun c hc => by
    rw [List.mem_reverse] at hc
    exact List.mem_takeWhile_imp hc)).symm

/-- Helper: left-stripping does not change the split. -/
theorem pySplit_lstrip (l : List Char) : pySplit (pyLstrip l) = pySplit l := by
  conv_rhs => rw [← List.takeWhile_append_dropWhile isPySpace l]
  exact (pySplitAux_allspace_append _ _ (fun c hc => List.mem_takeWhile_imp hc)).symm

/-- Helper: stripping does not change the split. -/
theorem pySplit_strip (l : List Char) : pySplit (pyStrip l) = pySplit l := by
  rw [pyStrip, pySplit_rstrip, pySplit_lstrip]

/-- Helper: a list that strips to nothing splits to nothing. -/
theorem pySplit_of_strip_eq_nil (l : List Char) (h : pyStrip l = []) : pySplit l = [] := by
  rw [← pySplit_strip, h]
  rfl

/-- Helper: every chunk the token breaker emits either fits or is a single
character. -/
theorem breakChunksGo_sound (w : List Char → ℚ) (maxW : ℚ) :
    ∀ (s chunk : List Char), (chunk = [] ∨ w chunk ≤ maxW ∨ chunk.length = 1) →
      ∀ t ∈ breakChunksGo w maxW s chunk, w t ≤ maxW ∨ t.length = 1 := by
  intro s
  induction s with
  | nil =>
    intro chunk hinv t ht
    simp only [breakChunksGo] at ht
    by_cases hce : chunk = []
    · simp [hce] at ht
    · rw [if_neg hce, List.mem_singleton] at ht
      subst ht
      rcases hinv with h | h
      · exact absurd h hce
      · exact h
  | cons ch rest ih =>
    intro chunk hinv t ht
    simp only [breakChunksGo] at ht
    by_cases hcond : w (chunk ++ [ch]) ≤ maxW ∨ chunk = []
    · rw [if_pos hcond] at ht
      refine ih (chunk ++ [ch]) ?_ t ht
      rcases hcond with h | h
      · exact Or.inr (Or.inl h)
      · subst h
        right
        right
        simp
    · rw [if_neg hcond] at ht
      push_neg at hcond
      rcases List.mem_cons.mp ht with rfl | ht2
      · rcases hinv with h | h
        · exact absurd h hcond.2
        · exact h
      · refine ih [ch] ?_ t ht2
        right
        right
        simp

/-- Helper: chunks of a whitespace-free token are non-empty and
whitespace-free. -/
theorem breakChunksGo_isToken (w : List Char → ℚ) (maxW : ℚ) :
    ∀ (s chunk : List Char), (∀ c ∈ s, isPySpace c = false) →
      (∀ c ∈ chunk, isPySpace c = false) →
      ∀ t ∈ breakChunksGo w maxW s chunk, t ≠ [] ∧ ∀ c ∈ t, isPySpace c = false := by
  intro s
  induction s with
  | nil =>
    intro chunk _ hchunk t ht
    simp only [breakChunksGo] at ht
    by_cases hce : chunk = []
    · simp [hce] at ht
    · rw [if_neg hce, List.mem_singleton] at ht
      subst ht
      exact ⟨hce, hchunk⟩
  | cons ch rest ih =>
    intro chunk hs hchunk t ht
    have hch : isPySpace ch = false := hs ch (List.mem_cons_self ch rest)
    have hrest : ∀ c ∈ rest, isPySpace c = false :=
      fun c hc => hs c (List.mem_cons_of_mem ch hc)
    simp only [breakChunksGo] at ht
    by_cases hcond : w (chunk ++ [ch]) ≤ maxW ∨ chunk = []
    · rw [if_pos hcond] at ht
      refine ih (chunk ++ [ch]) hrest ?_ t ht
      intro c hc
      rcases List.mem_append.mp hc with hc | hc
      · exact hchunk c hc
      · rw [List.mem_singleton] at hc
        subst hc
        exact hch
    · rw [if_neg hcond] at ht
      push_neg at hcond
      rcases List.mem_cons.mp ht with rfl | ht2
      · exact ⟨hcond.2, hchunk⟩
      · refine ih [ch] hrest ?_ t ht2
        intro c hc
        rw [List.mem_singleton] at hc
        subst hc
        exact hch

/-- Helper: soundness of `break_long_token` chunks. -/
theorem break_long_token_sound (w : List Char → ℚ) (maxW : ℚ) (tok : List Char) :
    ∀ t ∈ break_long_token w maxW tok, w t ≤ maxW ∨ t.length = 1 :=
  breakChunksGo_sound w maxW tok [] (Or.inl rfl)

/-- Helper: chunks of a whitespace-free token are tokens. -/
theorem break_long_token_isToken (w : List Char → ℚ) (maxW : ℚ) (tok : List Char)
    (htok : ∀ c ∈ tok, isPySpace c = false) :
    ∀ t ∈ break_long_token w maxW tok, t ≠ [] ∧ ∀ c ∈ t, isPySpace c = false :=
  breakChunksGo_isToken w maxW tok [] htok (by simp)

/-- Helper: breaking a single character yields that character alone. -/
theorem break_long_token_singleton (w : List Char → ℚ) (maxW : ℚ) (c : Char) :
    break_long_token w maxW [c] = [[c]] := by
  simp [break_long_token, breakChunksGo]

/-- Helper: a line list's token sequence distributes over append. -/
theorem tokensOfLines_append (l1 l2 : List (List Char)) :
    tokensOfLines (l1 ++ l2) = tokensOfLines l1 ++ tokensOfLines l2 := by
  simp [tokensOfLines]

/-- Helper: a line list's token sequence on cons. -/
theorem tokensOfLines_cons (l : List Char) (ls : List (List Char)) :
    tokensOfLines (l :: ls) = pySplit l ++ tokensOfLines ls := by
  simp [tokensOfLines]

/-- Helper: members of a pushed line list. -/
theorem mem_push_line {lines : List (List Char)} {x l : List Char}
    (h : x ∈ push_line lines l) : x ∈ lines ∨ (pyStrip l ≠ [] ∧ x = pyRstrip l) := by
  unfold push_line at h
  by_cases hc : pyStrip l ≠ []
  · rw [if_pos hc, List.mem_append, List.mem_singleton] at h
    rcases h with h | h
    · exact Or.inl h
    · exact Or.inr ⟨hc, h⟩
  · rw [if_neg hc] at h
    exact Or.inl h

/-- Helper: `push_line` is transparent for the token sequence. -/
theorem tokensOfLines_push_line (lines : List (List Char)) (l : List Char) :
    tokensOfLines (push_line lines l) = tokensOfLines lines ++ pySplit l := by
  by_cases h : pyStrip l = []
  · rw [push_line, if_neg (not_not_intro h), pySplit_of_strip_eq_nil l h, List.append_nil]
  · rw [push_line, if_pos h, tokensOfLines_append]
    simp [tokensOfLines, pySplit_rstrip]

/-- Helper: flushing the current line is transparent for the token sequence. -/
theorem tokensOfLines_flush (lines : List (List Char)) (current : List Char) :
    tokensOfLines (if current ≠ [] then push_line lines current else lines) =
      tokensOfLines lines ++ pySplit current := by
  by_cases hce : current = []
  · rw [if_neg (not_not_intro hce), hce]
    simp [pySplit, pySplitAux]
  · rw [if_pos hce, tokensOfLines_push_line]

/-- Helper: folding `push_line` over chunks is transparent for the token
sequence. -/
theorem tokensOfLines_foldl_push_line (chunks : List (List Char)) :
    ∀ lines, tokensOfLines (chunks.foldl push_line lines) =
      tokensOfLines lines ++ tokensOfLines chunks := by
  induction chunks with
  | nil =>
    intro lines
    simp [tokensOfLines]
  | cons c rest ih =>
    intro lines
    rw [List.foldl_cons, ih, tokensOfLines_push_line, tokensOfLines_cons]
    simp [List.append_assoc]

/-- Helper: the token sequence of a list of tokens is itself. -/
theorem tokensOfLines_of_tokens (ts : List (List Char))
    (h : ∀ t ∈ ts, t ≠ [] ∧ ∀ c ∈ t, isPySpace c = false) :
    tokensOfLines ts = ts := by
  induction ts with
  | nil => rfl
  | cons t rest ih =>
    rw [tokensOfLines_cons,
      pySplit_token t (h t (List.mem_cons_self t rest)).1 (h t (List.mem_cons_self t rest)).2,
      ih (fun x hx => h x (List.mem_cons_of_mem t hx))]
    rfl

/-- Helper: members of a folded push of a chunk list. -/
theorem mem_foldl_push_line {x : List Char} :
    ∀ (chunks : List (List Char)) (lines : List (List Char)),
      x ∈ chunks.foldl push_line lines →
      x ∈ lines ∨ ∃ c ∈ chunks, x = pyRstrip c := by
  intro chunks
  induction chunks with
  | nil =>
    intro lines h
    exact Or.inl h
  | cons c rest ih =>
    intro lines h
    rw [List.foldl_cons] at h
    rcases ih (push_line lines c) h with h2 | ⟨d, hd, hx⟩
    · rcases mem_push_line h2 with h3 | ⟨_, h3⟩
      · exact Or.inl h3
      · exact Or.inr ⟨c, List.mem_cons_self c rest, h3⟩
    · exact Or.inr ⟨d, List.mem_cons_of_mem c hd, hx⟩

/-- Helper: invariant of the wrap loop — every emitted line either fits or is
a single character. -/
theorem wrapGo_sound (w : List Char → ℚ) (maxW : ℚ) :
    ∀ (toks : List (List Char)) (current : List Char) (lines : List (List Char)),
      (∀ t ∈ toks, t ≠ [] ∧ ∀ c ∈ t, isPySpace c = false) →
      (current = [] ∨ (w current ≤ maxW ∧ pyRstrip current = current)) →
      (∀ l ∈ lines, w l ≤ maxW ∨ l.length = 1) →
      ∀ l ∈ wrapGo w maxW toks current lines, w l ≤ maxW ∨ l.length = 1 := by
  intro toks
  induction toks with
  | nil =>
    intro current lines _ hcur hlines l hl
    simp only [wrapGo] at hl
    by_cases hce : current = []
    · rw [if_neg (not_not_intro hce)] at hl
      exact hlines l hl
    · rw [if_pos hce] at hl
      rcases mem_push_line hl with h | ⟨_, rfl⟩
      · exact hlines l h
      · rcases hcur with h | ⟨h1, h2⟩
        · exact absurd h hce
        · rw [h2]
          exact Or.inl h1
  | cons tok rest ih =>
    intro current lines htoks hcur hlines l hl
    have htok := htoks tok (List.mem_cons_self tok rest)
    have hrest : ∀ t ∈ rest, t ≠ [] ∧ ∀ c ∈ t, isPySpace c = false :=
      fun t ht => htoks t (List.mem_cons_of_mem tok ht)
    simp only [wrapGo] at hl
    by_cases hbig : maxW < w tok
    · rw [if_pos hbig] at hl
      refine ih [] _ hrest (Or.inl rfl) ?_ l hl
      intro x hx
      rcases mem_foldl_push_line _ _ hx with hx2 | ⟨ch, hch, rfl⟩
      · by_cases hce : current = []
        · rw [if_neg (not_not_intro hce)] at hx2
          exact hlines x hx2
        · rw [if_pos hce] at hx2
          rcases mem_push_line hx2 with h | ⟨_, rfl⟩
          · exact hlines x h
          · rcases hcur with h | ⟨h1, h2⟩
            · exact absurd h hce
            · rw [h2]
              exact Or.inl h1
      · have hct := break_long_token_isToken w maxW tok htok.2 ch hch
        rw [pyRstrip_token ch hct.1 hct.2]
        exact break_long_token_sound w maxW tok ch hch
    · rw [if_neg hbig] at hl
      by_cases hfits : w (if current = [] then tok else current ++ ' ' :: tok) ≤ maxW
      · rw [if_pos hfits] at hl
        refine ih _ _ hrest (Or.inr ⟨hfits, ?_⟩) hlines l hl
        by_cases hce : current = []
        · rw [if_pos hce]
          exact pyRstrip_token tok htok.1 htok.2
        · rw [if_neg hce]
          have h := pyRstrip_append_token (current ++ [' ']) tok htok.1 htok.2
          simpa [List.append_assoc] using h
      · rw [if_neg hfits] at hl
        refine ih _ _ hrest
          (Or.inr ⟨le_of_not_lt hbig, pyRstrip_token tok htok.1 htok.2⟩) ?_ l hl
        intro x hx
        rcases mem_push_line hx with h | ⟨hne, rfl⟩
        · exact hlines x h
        · have hce : current ≠ [] := by
            intro he
            rw [he] at hne
            exact hne rfl
          rcases hcur with h | ⟨h1, h2⟩
          · exact absurd h hce
          · rw [h2]
            exact Or.inl h1

/-- Claim C2: for every width function, every text and every `maxW > 0`,
each line returned by `_wrap_text_to_lines` either has measured width at
most `maxW` or consists of a single character (an unbreakable character
wider than `maxW` is kept alone). -/
theorem wrap_lines_fit_or_single (w : List Char → ℚ) (maxW : ℚ) (text : List Char)
    (_hpos : 0 < maxW) :
    ∀ l ∈ wrap_text_to_lines w maxW text, w l ≤ maxW ∨ l.length = 1 := by
  intro l hl
  simp only [wrap_text_to_lines] at hl
  by_cases ht : pyStrip (text.filter (fun c => c ≠ '\r')) = []
  · rw [if_pos ht] at hl
    simp at hl
  · rw [if_neg ht] at hl
    exact wrapGo_sound w maxW _ [] [] (mem_pySplit _) (Or.inl rfl) (by simp) l hl

/-- Claim C2 (witness): with character-count width and `maxW = 3`, the
over-wide token `cdefg` is broken and the chunk `cde` fits. -/
theorem wrap_lines_fit_or_single_witness :
    (fun s : List Char => (s.length : ℚ)) ("cde".toList) ≤ 3 ∨ ("cde".toList).length = 1 :=
  wrap_lines_fit_or_single (fun s => (s.length : ℚ)) 3 ("ab cdefg".toList) (by norm_num)
    ("cde".toList) (by decide)

/-- Helper: token accounting for the wrap loop — the concatenated token
sequence of the produced lines is the flushed input state followed by the
expansion of every remaining token. -/
theorem wrapGo_tokens (w : List Char → ℚ) (maxW : ℚ) :
    ∀ (toks : List (List Char)) (current : List Char) (lines : List (List Char)),
      (∀ t ∈ toks, t ≠ [] ∧ ∀ c ∈ t, isPySpace c = false) →
      tokensOfLines (wrapGo w maxW toks current lines) =
        tokensOfLines lines ++ pySplit current ++
          (toks.map (expandToken w maxW)).flatten := by
  intro toks
  induction toks with
  | nil =>
    intro current lines _
    simp only [wrapGo, List.map_nil, List.flatten_nil, List.append_nil]
    exact tokensOfLines_flush lines current
  | cons tok rest ih =>
    intro current lines htoks
    have htok := htoks tok (List.mem_cons_self tok rest)
    have hrest : ∀ t ∈ rest, t ≠ [] ∧ ∀ c ∈ t, isPySpace c = false :=
      fun t ht => htoks t (List.mem_cons_of_mem tok ht)
    simp only [wrapGo]
    by_cases hbig : maxW < w tok
    · rw [if_pos hbig, ih [] _ hrest, tokensOfLines_foldl_push_line, tokensOfLines_flush,
        tokensOfLines_of_tokens _ (break_long_token_isToken w maxW tok htok.2),
        List.map_cons, List.flatten_cons, expandToken, if_pos hbig]
      simp [pySplit, pySplitAux, List.append_assoc]
    · rw [if_neg hbig]
      have hcand : pySplit (if current = [] then tok else current ++ ' ' :: tok) =
          pySplit current ++ [tok] := by
        by_cases hce : current = []
        · rw [if_pos hce, hce, pySplit_token tok htok.1 htok.2]
          rfl
        · rw [if_neg hce, pySplit_append_space, pySplit_token tok htok.1 htok.2]
      by_cases hfits : w (if current = [] then tok else current ++ ' ' :: tok) ≤ maxW
      · rw [if_pos hfits, ih _ _ hrest, hcand, List.map_cons, List.flatten_cons,
          expandToken, if_neg hbig]
        simp [List.append_assoc]
      · rw [if_neg hfits, ih _ _ hrest, tokensOfLines_push_line,
          pySplit_token tok htok.1 htok.2, List.map_cons, List.flatten_cons,
          expandToken, if_neg hbig]
        simp [List.append_assoc]

/-- Helper: the token sequence of a full wrap is the expansion of the
original token sequence. -/
theorem wrap_text_to_lines_tokens (w : List Char → ℚ) (maxW : ℚ) (text : List Char) :
    tokensOfLines (wrap_text_to_lines w maxW text) =
      ((pySplit (text.filter (fun c => c ≠ '\r'))).map (expandToken w maxW)).flatten := by
  simp only [wrap_text_to_lines]
  by_cases ht : pyStrip (text.filter (fun c => c ≠ '\r')) = []
  · rw [if_pos ht, pySplit_of_strip_eq_nil _ ht]
    rfl
  · rw [if_neg ht, wrapGo_tokens w maxW _ [] [] (mem_pySplit _), pySplit_strip]
    simp [tokensOfLines, pySplit, pySplitAux]

/-- Helper: characters of a joined line list. -/
theorem mem_spaceJoin {c : Char} :
    ∀ {ls : List (List Char)}, c ∈ spaceJoin ls → c = ' ' ∨ ∃ l ∈ ls, c ∈ l := by
  intro ls
  induction ls with
  | nil =>
    intro h
    simp [spaceJoin] at h
  | cons l rest ih =>
    cases rest with
    | nil =>
      intro h
      exact Or.inr ⟨l, by simp, by simpa [spaceJoin] using h⟩
    | cons l2 rest2 =>
      intro h
      simp only [spaceJoin] at h
      rcases List.mem_append.mp h with h | h
      · exact Or.inr ⟨l, List.mem_cons_self _ _, h⟩
      · rcases List.mem_cons.mp h with rfl | h
        · exact Or.inl rfl
        · rcases ih h with h2 | ⟨x, hx, hc⟩
          · exact Or.inl h2
          · exact Or.inr ⟨x, List.mem_cons_of_mem _ hx, hc⟩

/-- Helper: every character of every wrapped line is a space or a
non-whitespace character. -/
theorem wrapGo_charOK (w : List Char → ℚ) (maxW : ℚ) :
    ∀ (toks : List (List Char)) (current : List Char) (lines : List (List Char)),
      (∀ t ∈ toks, ∀ c ∈ t, isPySpace c = false) →
      (∀ c ∈ current, c = ' ' ∨ isPySpace c = false) →
      (∀ l ∈ lines, ∀ c ∈ l, c = ' ' ∨ isPySpace c = false) →
      ∀ l ∈ wrapGo w maxW toks current lines, ∀ c ∈ l, c = ' ' ∨ isPySpace c = false := by
  intro toks
  induction toks with
  | nil =>
    intro current lines _ hcur hlines l hl
    simp only [wrapGo] at hl
    by_cases hce : current = []
    · rw [if_neg (not_not_intro hce)] at hl
      exact hlines l hl
    · rw [if_pos hce] at hl
      rcases mem_push_line hl with h | ⟨_, rfl⟩
      · exact hlines l h
      · exact fun c hc => hcur c (mem_of_mem_pyRstrip hc)
  | cons tok rest ih =>
    intro current lines htoks hcur hlines l hl
    have htok := htoks tok (List.mem_cons_self tok rest)
    have hrest : ∀ t ∈ rest, ∀ c ∈ t, isPySpace c = false :=
      fun t ht => htoks t (List.mem_cons_of_mem tok ht)
    simp only [wrapGo] at hl
    by_cases hbig : maxW < w tok
    · rw [if_pos hbig] at hl
      refine ih [] _ hrest (by simp) ?_ l hl
      intro x hx
      rcases mem_foldl_push_line _ _ hx with hx2 | ⟨ch, hch, rfl⟩
      · by_cases hce : current = []
        · rw [if_neg (not_not_intro hce)] at hx2
          exact hlines x hx2
        · rw [if_pos hce] at hx2
          rcases mem_push_line hx2 with h | ⟨_, rfl⟩
          · exact hlines x h
          · exact fun c hc => hcur c (mem_of_mem_pyRstrip hc)
      · intro c hc
        exact Or.inr ((break_long_token_isToken w maxW tok htok ch hch).2 c
          (mem_of_mem_pyRstrip hc))
    · rw [if_neg hbig] at hl
      have hcandOK : ∀ c ∈ (if current = [] then tok else current ++ ' ' :: tok),
          c = ' ' ∨ isPySpace c = false := by
        by_cases hce : current = []
        · rw [if_pos hce]
          exact fun c hc => Or.inr (htok c hc)
        · rw [if_neg hce]
          intro c hc
          rcases List.mem_append.mp hc with hc | hc
          · exact hcur c hc
          · rcases List.mem_cons.mp hc with rfl | hc
            · exact Or.inl rfl
            · exact Or.inr (htok c hc)
      by_cases hfits : w (if current = [] then tok else current ++ ' ' :: tok) ≤ maxW
      · rw [if_pos hfits] at hl
        exact ih _ _ hrest hcandOK hlines l hl
      · rw [if_neg hfits] at hl
        refine ih _ _ hrest (fun c hc => Or.inr (htok c hc)) ?_ l hl
        intro x hx
        rcases mem_push_line hx with h | ⟨_, rfl⟩
        · exact hlines x h
        · exact fun c hc => hcur c (mem_of_mem_pyRstrip hc)

/-- Helper: characters of wrapped lines are spaces or non-whitespace. -/
theorem wrap_lines_charOK (w : List Char → ℚ) (maxW : ℚ) (text : List Char) :
    ∀ l ∈ wrap_text_to_lines w maxW text, ∀ c ∈ l, c = ' ' ∨ isPySpace c = false := by
  intro l hl
  simp only [wrap_text_to_lines] at hl
  by_cases ht : pyStrip (text.filter (fun c => c ≠ '\r')) = []
  · rw [if_pos ht] at hl
    simp at hl
  · rw [if_neg ht] at hl
    exact wrapGo_charOK w maxW _ [] []
      (fun t htm => (mem_pySplit _ t htm).2) (by simp) (by simp) l hl

/-- Helper: joining wrapped lines introduces no carriage return, so the
carriage-return filter of a re-wrap is the identity. -/
theorem filter_cr_spaceJoin (w : List Char → ℚ) (maxW : ℚ) (text : List Char) :
    (spaceJoin (wrap_text_to_lines w maxW text)).filter (fun c => c ≠ '\r') =
      spaceJoin (wrap_text_to_lines w maxW text) := by
  rw [List.filter_eq_self]
  intro c hc
  rcases mem_spaceJoin hc with h | ⟨l, hl, hcl⟩
  · subst h
    decide
  · rcases wrap_lines_charOK w maxW text l hl c hcl with h | h
    · subst h
      decide
    · simp only [ne_eq, decide_eq_true_eq]
      intro he
      subst he
      exact absurd h (by decide)

/-- Helper: splitting the space-join of lines recovers their token
sequence. -/
theorem pySplit_spaceJoin : ∀ ls : List (List Char),
    pySplit (spaceJoin ls) = tokensOfLines ls := by
  intro ls
  induction ls with
  | nil => rfl
  | cons l rest ih =>
    cases rest with
    | nil => simp [spaceJoin, tokensOfLines]
    | cons l2 rest2 =>
      simp only [spaceJoin]
      rw [pySplit_append_space, ih]
      simp [tokensOfLines_cons]

/-- Helper: flattening a map that is pointwise a singleton is the identity. -/
theorem flatten_map_id_of {f : List Char → List (List Char)} :
    ∀ ts : List (List Char), (∀ t ∈ ts, f t = [t]) → (ts.map f).flatten = ts := by
  intro ts
  induction ts with
  | nil => intro _; rfl
  | cons t rest ih =>
    intro h
    rw [List.map_cons, List.flatten_cons, h t (List.mem_cons_self t rest),
      ih (fun x hx => h x (List.mem_cons_of_mem t hx))]
    rfl

/-- Helper: expansion is a fixpoint on the tokens it itself produces. -/
theorem expandToken_chunk_fix (w : List Char → ℚ) (maxW : ℚ) (t : List Char)
    (ht1 : t ≠ []) (ht2 : ∀ c ∈ t, isPySpace c = false) :
    ∀ ch ∈ expandToken w maxW t, expandToken w maxW ch = [ch] := by
  intro ch hch
  by_cases hbig : maxW < w t
  · rw [expandToken, if_pos hbig] at hch
    by_cases hchbig : maxW < w ch
    · rcases break_long_token_sound w maxW t ch hch with h | h
      · exact absurd h (not_le.mpr hchbig)
      · obtain ⟨c, rfl⟩ : ∃ c, ch = [c] := List.length_eq_one.mp h
        rw [expandToken, if_pos hchbig, break_long_token_singleton]
    · rw [expandToken, if_neg hchbig]
  · rw [expandToken, if_neg hbig, List.mem_singleton] at hch
    subst hch
    rw [expandToken, if_neg hbig]

/-- Helper: expanding an already-expanded token sequence changes nothing. -/
theorem expandToken_flatten_fix (w : List Char → ℚ) (maxW : ℚ) :
    ∀ toks : List (List Char),
      (∀ t ∈ toks, t ≠ [] ∧ ∀ c ∈ t, isPySpace c = false) →
      (((toks.map (expandToken w maxW)).flatten.map (expandToken w maxW)).flatten) =
        (toks.map (expandToken w maxW)).flatten := by
  intro toks
  induction toks with
  | nil => intro _; rfl
  | cons t rest ih =>
    intro h
    have ht := h t (List.mem_cons_self t rest)
    rw [List.map_cons, List.flatten_cons, List.map_append, List.flatten_append,
      flatten_map_id_of _ (expandToken_chunk_fix w maxW t ht.1 ht.2),
      ih (fun x hx => h x (List.mem_cons_of_mem t hx))]

/-- Claim C9: wrapping is idempotent at the token level — joining the lines
returned by `_wrap_text_to_lines` with single spaces and wrapping the result
at the same width yields a line list whose concatenated whitespace-split
token sequence equals that of wrapping the original text. -/
theorem wrap_rewrap_token_sequence (w : List Char → ℚ) (maxW : ℚ) (text : List Char)
    (_hpos : 0 < maxW) :
    tokensOfLines (wrap_text_to_lines w maxW
        (spaceJoin (wrap_text_to_lines w maxW text))) =
      tokensOfLines (wrap_text_to_lines w maxW text) := by
  rw [wrap_text_to_lines_tokens w maxW (spaceJoin (wrap_text_to_lines w maxW text)),
    filter_cr_spaceJoin w maxW text, pySplit_spaceJoin,
    wrap_text_to_lines_tokens w maxW text,
    expandToken_flatten_fix w maxW _ (mem_pySplit _)]

/-- Claim C9 (witness): concrete re-wrap with character-count width. -/
theorem wrap_rewrap_token_sequence_witness :
    tokensOfLines (wrap_text_to_lines (fun s : List Char => (s.length : ℚ)) 3
        (spaceJoin (wrap_text_to_lines (fun s : List Char => (s.length : ℚ)) 3
          ("ab cdefg".toList)))) =
      tokensOfLines (wrap_text_to_lines (fun s : List Char => (s.length : ℚ)) 3
        ("ab cdefg".toList)) :=
  wrap_rewrap_token_sequence (fun s => (s.length : ℚ)) 3 ("ab cdefg".toList) (by norm_num)

end DrawingEngine
